import Mathlib

/-!
Verification development for the MCTS decision engine in
`src/mcts_vanilla.py` and `src/mcts_modified.py`.

The two Python modules implement Monte Carlo Tree Search over an opaque
game abstraction (`Board` from `p2_t3.py`, not present under `src/`) and a
tree-node class (`MCTSNode` from `mcts_node.py`, not present under `src/`).
Those two missing collaborators are modelled from the spec; everything else
is translated directly from the Python source.

Modelling conventions:
* Python's mutable node objects with `parent` back-references are embedded
  as a purely functional rose tree `MCTSNode`; the parent chain of a node
  is represented by the list of actions (the path) leading from the root to
  it, and mutation becomes explicit state passing (`updateAt`,
  `backpropagate` rewrite the tree along a path).
* Python dicts (`child_nodes`) become association lists with first-match
  lookup; `d[k] = v` becomes `dictInsert` (replace the first binding of `k`
  in place, else append), matching the insertion-order semantics of dicts.
* Python floats are modelled exactly: `ℝ` where `sqrt`/`log` appear
  (`ucb`), `ℚ` where the source only does field arithmetic
  (`roulette_wheel_selection`); `float('inf')` is `⊤ : WithTop ℝ`.
* `random.choice` / `random.random` become explicit injected streams of
  indices / thresholds.
-/

namespace MCTS

/-- Modelled from the spec: the game abstraction (`Board` from `p2_t3.py`)
is not under `src/`; spec §6 lists exactly this interface.  `σ` is the
opaque state type, `α` the action type.  `points_values` is defined only on
terminal states (`none` elsewhere); a value of exactly 1 for an identity
denotes a win. -/
structure Game (σ α : Type) where
  is_ended : σ → Bool
  legal_actions : σ → List α
  next_state : σ → α → σ
  current_player : σ → ℕ
  points_values : σ → Option (ℕ → ℤ)

/-- Modelled from the spec: the tree node class (`MCTSNode` from
`mcts_node.py`) is not under `src/`; spec §3 gives its fields.  The
`parent` / `parent_action` back-references are represented structurally:
a node's children are stored as an association list keyed by the action
that produced them (spec §3's mutual-consistency invariant:
`parent.children[parent_action]` is exactly the child). -/
inductive MCTSNode (α : Type) : Type where
  | mk (visits : ℕ) (wins : ℕ) (untried_actions : List α)
       (child_nodes : List (α × MCTSNode α))

/-- Field `visits`: count of simulations through this node (spec §3, starts 0). -/
def MCTSNode.visits {α : Type} : MCTSNode α → ℕ
  | .mk v _ _ _ => v

/-- Field `wins`: count of winning simulations through this node (spec §3). -/
def MCTSNode.wins {α : Type} : MCTSNode α → ℕ
  | .mk _ w _ _ => w

/-- Field `untried_actions`: legal actions not yet expanded (spec §3). -/
def MCTSNode.untried_actions {α : Type} : MCTSNode α → List α
  | .mk _ _ u _ => u

/-- Field `child_nodes`: action → child mapping (spec §3), as an assoc list. -/
def MCTSNode.child_nodes {α : Type} : MCTSNode α → List (α × MCTSNode α)
  | .mk _ _ _ cs => cs

/-- Modelled from the spec: the `MCTSNode` constructor
(`MCTSNode(parent=…, parent_action=…, action_list=…)`): `visits` and
`wins` start at 0, `untried_actions` is the given action list, and the
child mapping starts empty (spec §3, §4.1). -/
def MCTSNode.new {α : Type} (action_list : List α) : MCTSNode α :=
  .mk 0 0 action_list []

/-- First-match lookup in an association list (Python `d[k]` read,
`none` when the key is absent, i.e. a `KeyError`). -/
def dictGet {α β : Type} [DecidableEq α] (k : α) : List (α × β) → Option β
  | [] => none
  | (k', v) :: rest => if k' = k then some v else dictGet k rest

/-- Python `d[k] = v`: replace the first binding of `k` in place, else
append the new binding (dict insertion-order semantics). -/
def dictInsert {α β : Type} [DecidableEq α] (k : α) (v : β) :
    List (α × β) → List (α × β)
  | [] => [(k, v)]
  | (k', v') :: rest =>
      if k' = k then (k, v) :: rest else (k', v') :: dictInsert k v rest

/-- Rewrite the value bound to the first occurrence of key `k` with `f`
(no-op when the key is absent). -/
def updateChild {α β : Type} [DecidableEq α] (k : α) (f : β → β) :
    List (α × β) → List (α × β)
  | [] => []
  | (k', v) :: rest =>
      if k' = k then (k', f v) :: rest else (k', v) :: updateChild k f rest

/-- Python's `max(l, key=key)`: fold keeping the current best, replacing
it only on a strictly larger key, so the first maximum in iteration order
wins. `best` is the running best, initially the head of the iterable. -/
def pyMax {γ β : Type} [LinearOrder β] (key : γ → β) : γ → List γ → γ
  | best, [] => best
  | best, x :: xs => if key best < key x then pyMax key x xs else pyMax key best xs

/-- Python `random.choice` on the non-empty list `x :: xs`, with the drawn
randomness injected as an index `idx` (reduced mod the length). -/
def choose {α : Type} (idx : ℕ) (x : α) (xs : List α) : α :=
  (x :: xs).get ⟨idx % (xs.length + 1), Nat.mod_lt _ (Nat.succ_pos _)⟩

/-- Python `all(child.visits == 0 for child in node.child_nodes.values())`
(both `traverse_nodes` variants, the all-zero-visits guard). -/
def allZero {α : Type} (cs : List (α × MCTSNode α)) : Bool :=
  cs.all fun c => c.2.visits == 0

mutual

/-- Predicate `wins ≤ visits` at every node of the tree (spec §3 invariant,
claim C2); recursive Bool predicate over the rose tree. -/
def allWV {α : Type} : MCTSNode α → Bool
  | .mk v w _ cs => decide (w ≤ v) && allWVList cs

/-- Predicate `allWV` over every child subtree of an association list. -/
def allWVList {α : Type} : List (α × MCTSNode α) → Bool
  | [] => true
  | c :: rest => allWV c.2 && allWVList rest

end

/-- Python `backpropagate(node, won)` (identical in `mcts_vanilla.py:89-101` and
`mcts_modified.py:111-123`): the Python walk from a node up through
`parent` references is embedded top-down along the root path `p` of that
node: every node on the path (root and the addressed node inclusive) gets
`visits += 1`, and `wins += 1` exactly when `won`. -/
def backpropagate {α : Type} [DecidableEq α] (won : Bool) :
    MCTSNode α → List α → MCTSNode α
  | .mk v w u cs, [] => .mk (v + 1) (w + if won then 1 else 0) u cs
  | .mk v w u cs, a :: p =>
      .mk (v + 1) (w + if won then 1 else 0) u
        (updateChild a (fun c => backpropagate won c p) cs)

/-- Python `expand_leaf(node, board, state)` (identical in `mcts_vanilla.py:39-68`
and `mcts_modified.py:57-86`).  Python mutates `node` and returns
`(child_node, new_state)`; the functional embedding returns
`(updated node, returned node, path extension, returned state)` where the
path extension is `[action]` on expansion and `[]` on the no-op branch
(it extends the root path of `node` to the root path of the returned
node).  `random.choice(node.untried_actions)` is the injected index
`idx`; `node.untried_actions.remove(action)` removes the first occurrence
(`List.erase`); `node.child_nodes[action] = child_node` is `dictInsert`. -/
def expand_leaf {σ α : Type} [DecidableEq α] (g : Game σ α) (idx : ℕ)
    (t : MCTSNode α) (s : σ) : MCTSNode α × MCTSNode α × List α × σ :=
  match t with
  | .mk v w u cs =>
    match u with
    | [] => (.mk v w [] cs, .mk v w [] cs, [], s)
    | x :: xs =>
      let action := choose idx x xs
      let new_state := g.next_state s action
      let child_node := MCTSNode.new (g.legal_actions new_state)
      (.mk v w ((x :: xs).erase action) (dictInsert action child_node cs),
       child_node, [action], new_state)

/-- Python `rollout(board, state)` (`mcts_vanilla.py:71-87`; the modified file's
`rollout` with `heuristic_strategy` is the same random playout, since
`heuristic_strategy` is `choice(legal_actions)`).  The `while not
board.is_ended(state)` loop is fuel-bounded: spec §4.5 makes termination a
Game-Abstraction obligation, so `fuel` bounds the game length; an empty
legal-action list on a non-terminal state (a contract violation, spec §7b)
stops the playout where Python would raise. -/
def rollout {σ α : Type} (g : Game σ α) (pick : ℕ → ℕ) :
    ℕ → σ → σ
  | 0, s => s
  | fuel + 1, s =>
      if g.is_ended s then s
      else
        match g.legal_actions s with
        | [] => s
        | x :: xs => rollout g pick fuel (g.next_state s (choose (pick fuel) x xs))

/-- Python `is_win(board, state, identity_of_bot)` (identical in both files):
reads `board.points_values(state)` and compares the bot's entry with 1.
Python asserts the outcome is not `None`; the `none` branch here models
that assertion path (unreachable when called on terminal states). -/
def is_win {σ α : Type} (g : Game σ α) (s : σ) (identity_of_bot : ℕ) : Bool :=
  match g.points_values s with
  | some outcome => outcome identity_of_bot == 1
  | none => false

/-- Python `get_best_action(root_node)` (identical in `mcts_vanilla.py:120-132`
and `mcts_modified.py:179-191`): `None` when the root has no children,
else Python's `max` over the dict keys keyed by the child's visit count —
over an assoc list with unique keys that is `pyMax` over the (action,
child) pairs keyed by the child's visits. -/
def get_best_action {α : Type} (root_node : MCTSNode α) : Option α :=
  match root_node.child_nodes with
  | [] => none
  | c :: cs => some (pyMax (fun p => p.2.visits) c cs).1

/-- The subtree of `t` addressed by the root path `p` (follows
`child_nodes` key by key); `none` when the path does not exist. -/
def subtreeAt {α : Type} [DecidableEq α] : MCTSNode α → List α → Option (MCTSNode α)
  | t, [] => some t
  | t, a :: p =>
      match dictGet a t.child_nodes with
      | none => none
      | some c => subtreeAt c p

/-- The visit counter of the node addressed by path `p`. -/
def visitsAt {α : Type} [DecidableEq α] (t : MCTSNode α) (p : List α) : Option ℕ :=
  (subtreeAt t p).map MCTSNode.visits

/-- The win counter of the node addressed by path `p`. -/
def winsAt {α : Type} [DecidableEq α] (t : MCTSNode α) (p : List α) : Option ℕ :=
  (subtreeAt t p).map MCTSNode.wins

/-- The untried-action list of the node addressed by path `p`. -/
def untriedAt {α : Type} [DecidableEq α] (t : MCTSNode α) (p : List α) :
    Option (List α) :=
  (subtreeAt t p).map MCTSNode.untried_actions

/-- Replace the subtree addressed by path `p` with `f` of it (the
functional rendering of Python's in-place node mutation: the driver
mutates the node `traverse_nodes` returned, which lives at path `p`). -/
def updateAt {α : Type} [DecidableEq α] :
    MCTSNode α → List α → (MCTSNode α → MCTSNode α) → MCTSNode α
  | t, [], f => f t
  | .mk v w u cs, a :: p, f =>
      .mk v w u (updateChild a (fun c => updateAt c p f) cs)

/-- Cumulative probability mass of the first `n` entries of a
probability association list. -/
def cumulMass {α : Type} (probs : List (α × ℚ)) (n : ℕ) : ℚ :=
  ((probs.take n).map Prod.snd).sum

/-- The concrete sibling list from the spec's stochastic-selection test:
three children with visit counts 10, 30, 60 under actions 0, 1, 2. -/
def exampleChildren : List (ℕ × MCTSNode ℕ) :=
  [(0, .mk 10 0 [] []), (1, .mk 30 0 [] []), (2, .mk 60 0 [] [])]

/-- A one-state, already-ended game: the concrete instance of a terminal
root state (terminal everywhere, no legal actions, player 1 wins). -/
def terminalGame : Game Unit ℕ where
  is_ended := fun _ => true
  legal_actions := fun _ => []
  next_state := fun s _ => s
  current_player := fun _ => 1
  points_values := fun _ => some fun _ => 1

namespace Vanilla

/-- Constant `num_nodes = 100` (`mcts_vanilla.py:7`), the iteration budget. -/
def num_nodes : ℕ := 100

/-- Constant `explore_faction = 2.` (`mcts_vanilla.py:8`), the exploration
constant `C`. -/
def explore_faction : ℝ := 2

/-- Python `ucb(node, bot_identity)` (`mcts_vanilla.py:103-117`).  Python floats
are modelled over `ℝ`, `float('inf')` as `⊤ : WithTop ℝ`.  The caller
passes the parent's visit count (`node.parent.visits` in Python) since
the embedding stores the parent chain structurally. -/
noncomputable def ucb {α : Type} (parent_visits : ℕ) (node : MCTSNode α)
    (bot_identity : ℕ) : WithTop ℝ :=
  if node.visits = 0 then ⊤
  else
    let exploitation : ℝ := (node.wins : ℝ) / (node.visits : ℝ)
    let exploration : ℝ :=
      explore_faction * Real.sqrt (Real.log (parent_visits : ℝ) / (node.visits : ℝ))
    if bot_identity = 1 then ((exploitation + exploration : ℝ) : WithTop ℝ)
    else ((-exploitation + exploration : ℝ) : WithTop ℝ)

/-- Python `max(node.child_nodes.values(), key=lambda x: ucb(x, bot_identity))`
(`mcts_vanilla.py:31`): Python's first-maximum `max` over the children of
a node whose visit count is `parent_visits`; `none` on an empty dict
(where Python's `max` would raise). -/
noncomputable def selectChild {α : Type} (parent_visits : ℕ) (bot_identity : ℕ) :
    List (α × MCTSNode α) → Option (α × MCTSNode α)
  | [] => none
  | c :: cs => some (pyMax (fun p => ucb parent_visits p.2 bot_identity) c cs)

/-- Python `traverse_nodes(node, board, state, bot_identity)`
(`mcts_vanilla.py:10-35`): descend while the state is non-terminal and
the node is fully expanded; stop at once when the node has no children or
all children have zero visits, else descend into the UCB-maximal child.
The accumulator `path` is ghost state recording the root path of the
current node (Python keeps it implicitly via `parent` references), so the
returned triple is (root path of reached node, reached node, its state). -/
noncomputable def traverse_nodes {σ α : Type} [DecidableEq α] (g : Game σ α)
    (bot_identity : ℕ) :
    MCTSNode α → σ → List α → List α × MCTSNode α × σ
  | t, s, path =>
    if g.is_ended s = false ∧ t.untried_actions = [] then
      if t.child_nodes.isEmpty ∨ allZero t.child_nodes then (path, t, s)
      else
        match h : selectChild t.visits bot_identity t.child_nodes with
        | none => (path, t, s)
        | some (a, c) =>
            traverse_nodes g bot_identity c (g.next_state s a) (path ++ [a])
    else (path, t, s)
  termination_by t => sizeOf t
  decreasing_by
    have hmem : (a, c) ∈ t.child_nodes := by
      cases hcs : t.child_nodes with
      | nil => rw [hcs] at h; simp [selectChild] at h
      | cons e rest =>
          rw [hcs] at h
          simp only [selectChild, Option.some.injEq] at h
          rw [← h]
          have hpy : ∀ (l : List (α × MCTSNode α)) (b : α × MCTSNode α),
              pyMax (fun p => ucb t.visits p.2 bot_identity) b l ∈ b :: l := by
            intro l
            induction l with
            | nil => intro b; exact List.mem_cons_self _ _
            | cons x xs ih =>
                intro b
                simp only [pyMax]
                by_cases hb : ucb t.visits b.2 bot_identity
                    < ucb t.visits x.2 bot_identity
                · rw [if_pos hb]
                  rcases List.mem_cons.mp (ih x) with h1 | h1
                  · rw [h1]
                    exact List.mem_cons.mpr (Or.inr (List.mem_cons_self _ _))
                  · exact List.mem_cons.mpr
                      (Or.inr (List.mem_cons.mpr (Or.inr h1)))
                · rw [if_neg hb]
                  rcases List.mem_cons.mp (ih b) with h1 | h1
                  · rw [h1]; exact List.mem_cons_self _ _
                  · exact List.mem_cons.mpr
                      (Or.inr (List.mem_cons.mpr (Or.inr h1)))
          exact hpy rest e
    cases t with
    | mk v w u cs =>
        simp only [MCTSNode.child_nodes] at hmem
        have h1 := List.sizeOf_lt_of_mem hmem
        have h2 : sizeOf c < sizeOf (a, c) := by simp
        simp only [MCTSNode.mk.sizeOf_spec]
        omega

/-- One iteration of the `for _ in range(num_nodes)` loop of `think`
(`mcts_vanilla.py:154-172`), acting on (root tree, ghost rollout-call
counter): traverse from the root with the current state, expand the
reached leaf (rewriting the tree at the traversed path), roll out,
evaluate the win, backpropagate along the path of the expanded node.  The
`ℕ` component is ghost instrumentation counting invocations of
`rollout`; it is not in the source. -/
noncomputable def thinkStep {σ α : Type} [DecidableEq α] (g : Game σ α)
    (fuel : ℕ) (picks : ℕ → ℕ) (rolls : ℕ → ℕ → ℕ) (s0 : σ)
    (bot_identity : ℕ) (i : ℕ) (st : MCTSNode α × ℕ) : MCTSNode α × ℕ :=
  let tr := traverse_nodes g bot_identity st.1 s0 []
  let ex := expand_leaf g (picks i) tr.2.1 tr.2.2
  let root' := updateAt st.1 tr.1 (fun _ => ex.1)
  let result_state := rollout g (rolls i) fuel ex.2.2.2
  let won := is_win g result_state bot_identity
  (backpropagate won root' (tr.1 ++ ex.2.2.1), st.2 + 1)

/-- The loop state of `think` after `k` completed iterations, starting
from the fresh root `MCTSNode(parent=None, parent_action=None,
action_list=board.legal_actions(current_state))` (`mcts_vanilla.py:152`). -/
noncomputable def thinkIterate {σ α : Type} [DecidableEq α] (g : Game σ α)
    (fuel : ℕ) (picks : ℕ → ℕ) (rolls : ℕ → ℕ → ℕ) (s0 : σ)
    (bot_identity : ℕ) : ℕ → MCTSNode α × ℕ
  | 0 => (MCTSNode.new (g.legal_actions s0), 0)
  | k + 1 =>
      thinkStep g fuel picks rolls s0 bot_identity k
        (thinkIterate g fuel picks rolls s0 bot_identity k)

/-- Python `think(board, current_state)` (`mcts_vanilla.py:141-180`): run
`num_nodes` iterations and extract the best action; the second component
is the ghost count of `rollout` invocations performed. -/
noncomputable def think {σ α : Type} [DecidableEq α] (g : Game σ α)
    (fuel : ℕ) (picks : ℕ → ℕ) (rolls : ℕ → ℕ → ℕ) (current_state : σ) :
    Option α × ℕ :=
  let bot_identity := g.current_player current_state
  let st := thinkIterate g fuel picks rolls current_state bot_identity num_nodes
  (get_best_action st.1, st.2)

end Vanilla

namespace Modified

/-- Constant `num_nodes = 1000` (`mcts_modified.py:6`), the iteration budget. -/
def num_nodes : ℕ := 1000

/-- The loop of `roulette_wheel_selection` (`mcts_modified.py:50-55`):
`cumulative_prob` starts at 0, each entry adds its probability, and the
first entry whose cumulative mass reaches or exceeds the threshold is
returned; `none` models the Python fall-through (implicit `return None`)
when the loop ends without returning. -/
def rouletteLoop {α : Type} (threshold : ℚ) :
    List (α × ℚ) → ℚ → Option α
  | [], _ => none
  | (action, prob) :: rest, cumulative_prob =>
      if threshold ≤ cumulative_prob + prob then some action
      else rouletteLoop threshold rest (cumulative_prob + prob)

/-- Python `roulette_wheel_selection(probabilities)` (`mcts_modified.py:41-55`);
the `random()` draw is the injected `threshold`, exact arithmetic over
`ℚ`. -/
def roulette_wheel_selection {α : Type} (probabilities : List (α × ℚ))
    (threshold : ℚ) : Option α :=
  rouletteLoop threshold probabilities 0

/-- The probability mapping built in `traverse_nodes`
(`mcts_modified.py:32-33`): `total_visits = sum(child.visits …)`,
`probabilities = {action: child.visits / total_visits …}`.  When
`total_visits = 0` Python would raise `ZeroDivisionError`; over `ℚ` the
quotient is 0 (the caller's all-zero-visits guard keeps that branch
unreachable). -/
def probabilitiesOf {α : Type} (cs : List (α × MCTSNode α)) : List (α × ℚ) :=
  let total_visits : ℚ := ((cs.map fun c => c.2.visits).sum : ℕ)
  cs.map fun c => (c.1, (c.2.visits : ℚ) / total_visits)

/-- Python `traverse_nodes(node, board, state, bot_identity)`
(`mcts_modified.py:9-39`): like the vanilla descent but the child is
drawn by roulette-wheel selection over visit-proportional probabilities.
`ths` is the stream of `random()` draws, indexed by descent depth;
`path` is the ghost root path as in the vanilla variant.  The `none`
results model the Python crashes when `roulette_wheel_selection` falls
through (`node.child_nodes[None]`) or the drawn key is absent. -/
def traverse_nodes {σ α : Type} [DecidableEq α] (g : Game σ α)
    (ths : ℕ → ℚ) :
    MCTSNode α → σ → List α → ℕ → Option (List α × MCTSNode α × σ)
  | t, s, path, depth =>
    if g.is_ended s = false ∧ t.untried_actions = [] then
      if t.child_nodes.isEmpty ∨ allZero t.child_nodes then some (path, t, s)
      else
        let probabilities := probabilitiesOf t.child_nodes
        match roulette_wheel_selection probabilities (ths depth) with
        | none => none
        | some selected_action =>
            match h : dictGet selected_action t.child_nodes with
            | none => none
            | some c =>
                traverse_nodes g ths c (g.next_state s selected_action)
                  (path ++ [selected_action]) (depth + 1)
    else some (path, t, s)
  termination_by t => sizeOf t
  decreasing_by
    have hmem : (selected_action, c) ∈ t.child_nodes := by
      have hdg : ∀ (l : List (α × MCTSNode α)),
          dictGet selected_action l = some c → (selected_action, c) ∈ l := by
        intro l
        induction l with
        | nil => intro hh; simp [dictGet] at hh
        | cons e rest ih =>
            intro hh
            cases e with
            | mk k' v' =>
                simp only [dictGet] at hh
                by_cases hk : k' = selected_action
                · rw [if_pos hk] at hh
                  cases hh
                  subst hk
                  exact List.mem_cons_self _ _
                · rw [if_neg hk] at hh
                  exact List.mem_cons.mpr (Or.inr (ih hh))
      exact hdg t.child_nodes h
    cases t with
    | mk v w u cs =>
        simp only [MCTSNode.child_nodes] at hmem
        have h1 := List.sizeOf_lt_of_mem hmem
        have h2 : sizeOf c < sizeOf (selected_action, c) := by simp
        simp only [MCTSNode.mk.sizeOf_spec]
        omega

/-- One iteration of the `for _ in range(num_nodes)` loop of the modified
`think` (`mcts_modified.py:139-156`); identical to the vanilla iteration
except for the stochastic descent (whose crash branches propagate as
`none`).  The `ℕ` component is ghost instrumentation counting `rollout`
invocations. -/
def thinkStep {σ α : Type} [DecidableEq α] (g : Game σ α) (fuel : ℕ)
    (picks : ℕ → ℕ) (rolls : ℕ → ℕ → ℕ) (ths : ℕ → ℕ → ℚ) (s0 : σ)
    (i : ℕ) (st : MCTSNode α × ℕ) : Option (MCTSNode α × ℕ) :=
  match traverse_nodes g (ths i) st.1 s0 [] 0 with
  | none => none
  | some tr =>
      let ex := expand_leaf g (picks i) tr.2.1 tr.2.2
      let root' := updateAt st.1 tr.1 (fun _ => ex.1)
      let result_state := rollout g (rolls i) fuel ex.2.2.2
      let won := is_win g result_state (g.current_player s0)
      some (backpropagate won root' (tr.1 ++ ex.2.2.1), st.2 + 1)

/-- The loop state of the modified `think` after `k` completed
iterations (`none` once any iteration crashed). -/
def thinkIterate {σ α : Type} [DecidableEq α] (g : Game σ α) (fuel : ℕ)
    (picks : ℕ → ℕ) (rolls : ℕ → ℕ → ℕ) (ths : ℕ → ℕ → ℚ) (s0 : σ) :
    ℕ → Option (MCTSNode α × ℕ)
  | 0 => some (MCTSNode.new (g.legal_actions s0), 0)
  | k + 1 =>
      (thinkIterate g fuel picks rolls ths s0 k).bind
        (thinkStep g fuel picks rolls ths s0 k)

/-- Python `think(board, current_state)` (`mcts_modified.py:125-162`); the
second component is the ghost count of `rollout` invocations. -/
def think {σ α : Type} [DecidableEq α] (g : Game σ α) (fuel : ℕ)
    (picks : ℕ → ℕ) (rolls : ℕ → ℕ → ℕ) (ths : ℕ → ℕ → ℚ)
    (current_state : σ) : Option (Option α × ℕ) :=
  (thinkIterate g fuel picks rolls ths current_state num_nodes).map
    fun st => (get_best_action st.1, st.2)

end Modified

/-! ## Helper lemmas -/

theorem pyMax_mem {γ β : Type} [LinearOrder β] (key : γ → β) :
    ∀ (l : List γ) (b : γ), pyMax key b l ∈ b :: l := by
  intro l
  induction l with
  | nil => intro b; simp [pyMax]
  | cons x xs ih =>
      intro b
      simp only [pyMax]
      by_cases h : key b < key x
      · simp only [h, if_pos]
        have := ih x
        rcases List.mem_cons.mp this with h1 | h1
        · simp [h1]
        · simp [h1]
      · simp only [h, if_neg, not_false_iff]
        have := ih b
        rcases List.mem_cons.mp this with h1 | h1
        · simp [h1]
        · simp [h1]

theorem pyMax_le {γ β : Type} [LinearOrder β] (key : γ → β) :
    ∀ (l : List γ) (b : γ) (x : γ), x ∈ b :: l → key x ≤ key (pyMax key b l) := by
  intro l
  induction l with
  | nil =>
      intro b x hx
      simp at hx
      simp [pyMax, hx]
  | cons y ys ih =>
      intro b x hx
      simp only [pyMax]
      by_cases h : key b < key y
      · simp only [h, if_pos]
        rcases List.mem_cons.mp hx with h1 | h1
        · subst h1
          exact le_trans (le_of_lt h) (ih y y (List.mem_cons_self y ys))
        · rcases List.mem_cons.mp h1 with h2 | h2
          · exact ih y x (List.mem_cons.mpr (Or.inl h2))
          · exact ih y x (List.mem_cons.mpr (Or.inr h2))
      · simp only [h, if_neg, not_false_iff]
        rcases List.mem_cons.mp hx with h1 | h1
        · exact ih b x (List.mem_cons.mpr (Or.inl h1))
        · rcases List.mem_cons.mp h1 with h2 | h2
          · subst h2
            exact le_trans (le_of_not_lt h) (ih b b (List.mem_cons_self b ys))
          · exact ih b x (List.mem_cons.mpr (Or.inr h2))

theorem dictGet_mem {α β : Type} [DecidableEq α] {k : α} {v : β} :
    ∀ {l : List (α × β)}, dictGet k l = some v → (k, v) ∈ l := by
  intro l
  induction l with
  | nil => intro h; simp [dictGet] at h
  | cons c rest ih =>
      intro h
      cases c with
      | mk k' v' =>
          simp only [dictGet] at h
          by_cases hk : k' = k
          · simp only [hk, if_pos] at h
            cases h
            subst hk
            exact List.mem_cons_self _ _
          · simp only [hk, if_neg, not_false_iff] at h
            exact List.mem_cons.mpr (Or.inr (ih h))

theorem sizeOf_child_lt {α : Type} [SizeOf α] {a : α} {c t : MCTSNode α}
    (h : (a, c) ∈ t.child_nodes) : sizeOf c < sizeOf t := by
  cases t with
  | mk v w u cs =>
      simp only [MCTSNode.child_nodes] at h
      have h1 := List.sizeOf_lt_of_mem h
      simp only [MCTSNode.mk.sizeOf_spec]
      have h2 : sizeOf c < sizeOf (a, c) := by simp
      omega

theorem Vanilla.selectChild_mem {α : Type} {parent_visits bot_identity : ℕ}
    {cs : List (α × MCTSNode α)} {p : α × MCTSNode α}
    (h : Vanilla.selectChild parent_visits bot_identity cs = some p) : p ∈ cs := by
  cases cs with
  | nil => simp [Vanilla.selectChild] at h
  | cons c rest =>
      simp only [Vanilla.selectChild, Option.some.injEq] at h
      subst h
      exact pyMax_mem _ rest c


theorem cumulMass_cons {α : Type} (a : α) (p : ℚ) (rest : List (α × ℚ)) (n : ℕ) :
    cumulMass ((a, p) :: rest) (n + 1) = p + cumulMass rest n := by
  simp [cumulMass]

theorem rouletteLoop_first {α : Type} (th : ℚ) :
    ∀ (l : List (α × ℚ)) (i : ℕ) (hi : i < l.length) (cum : ℚ),
      (∀ j, j < i → cum + cumulMass l (j + 1) < th) →
      th ≤ cum + cumulMass l (i + 1) →
      Modified.rouletteLoop th l cum = some (l.get ⟨i, hi⟩).1 := by
  intro l
  induction l with
  | nil => intro i hi; simp at hi
  | cons e rest ih =>
      intro i hi cum hlt hge
      cases e with
      | mk a p =>
          cases i with
          | zero =>
              rw [cumulMass_cons] at hge
              simp only [cumulMass, List.take_zero, List.map_nil, List.sum_nil,
                add_zero] at hge
              simp [Modified.rouletteLoop, hge]
          | succ i =>
              have h0 := hlt 0 (Nat.succ_pos _)
              rw [cumulMass_cons] at h0
              simp only [cumulMass, List.take_zero, List.map_nil, List.sum_nil,
                add_zero] at h0
              have hnot : ¬ th ≤ cum + p := not_le.mpr (by linarith)
              simp only [Modified.rouletteLoop, hnot, if_neg, not_false_iff]
              have hi' : i < rest.length := by simpa using hi
              have := ih i hi' (cum + p)
                (fun j hj => by
                  have := hlt (j + 1) (Nat.succ_lt_succ hj)
                  rw [cumulMass_cons] at this
                  linarith)
                (by rw [cumulMass_cons] at hge; linarith)
              simpa using this

theorem rouletteLoop_total {α : Type} (th : ℚ) :
    ∀ (l : List (α × ℚ)) (cum : ℚ), l ≠ [] →
      th ≤ cum + (l.map Prod.snd).sum →
      ∃ a, Modified.rouletteLoop th l cum = some a ∧ a ∈ l.map Prod.fst := by
  intro l
  induction l with
  | nil => intro cum h; exact absurd rfl h
  | cons e rest ih =>
      intro cum _ hge
      cases e with
      | mk a p =>
          by_cases hc : th ≤ cum + p
          · exact ⟨a, by simp [Modified.rouletteLoop, hc], by simp⟩
          · cases rest with
            | nil =>
                exfalso
                simp only [List.map_cons, List.map_nil, List.sum_cons,
                  List.sum_nil, add_zero] at hge
                exact hc hge
            | cons f rest' =>
                have hge' : th ≤ (cum + p) + ((f :: rest').map Prod.snd).sum := by
                  simp only [List.map_cons, List.sum_cons] at hge ⊢
                  linarith
                obtain ⟨x, hx, hmem⟩ := ih (cum + p) (by simp) hge'
                refine ⟨x, ?_, by simp [List.mem_cons]; right; simpa using hmem⟩
                simp only [Modified.rouletteLoop, hc, if_neg, not_false_iff]
                exact hx

theorem sum_map_div {α : Type} (f : α → ℕ) (T : ℚ) :
    ∀ (l : List α), (l.map fun c => ((f c : ℚ) / T)).sum
      = ((l.map fun c => (f c : ℚ)).sum) / T := by
  intro l
  induction l with
  | nil => simp
  | cons x xs ih => simp [ih, add_div]

theorem sum_map_cast (f : α → ℕ) :
    ∀ (l : List α), (l.map fun c => ((f c : ℚ))).sum
      = (((l.map f).sum : ℕ) : ℚ) := by
  intro l
  induction l with
  | nil => simp
  | cons x xs ih => simp [ih]

/-- The probability mapping built by the modified `traverse_nodes` has
total mass 1 whenever the children's total visit count is nonzero. -/
theorem sum_probabilitiesOf {α : Type} (cs : List (α × MCTSNode α))
    (h : (cs.map fun c => c.2.visits).sum ≠ 0) :
    ((Modified.probabilitiesOf cs).map Prod.snd).sum = 1 := by
  have hT : (((cs.map fun c => c.2.visits).sum : ℕ) : ℚ) ≠ 0 := by
    exact_mod_cast h
  simp only [Modified.probabilitiesOf, List.map_map]
  have heq : (Prod.snd ∘ fun c : α × MCTSNode α =>
      (c.1, (c.2.visits : ℚ) / (((cs.map fun c => c.2.visits).sum : ℕ) : ℚ)))
      = fun c : α × MCTSNode α =>
        (((fun c : α × MCTSNode α => c.2.visits) c : ℕ) : ℚ)
          / (((cs.map fun c => c.2.visits).sum : ℕ) : ℚ) := rfl
  rw [heq, sum_map_div (fun c : α × MCTSNode α => c.2.visits) _ cs,
    sum_map_cast (fun c : α × MCTSNode α => c.2.visits) cs, div_self hT]

/-! ## Claim theorems -/

/-- C8: `get_best_action` returns, among the root's children, the action
whose child has the maximum visit count, and `none` when the root has no
children. -/
theorem get_best_action_max_visits {α : Type} (root_node : MCTSNode α) :
    (root_node.child_nodes = [] → get_best_action root_node = none)
    ∧ (root_node.child_nodes ≠ [] →
        ∃ a c, get_best_action root_node = some a
          ∧ (a, c) ∈ root_node.child_nodes
          ∧ ∀ b d, (b, d) ∈ root_node.child_nodes → d.visits ≤ c.visits) := by
  constructor
  · intro h
    cases root_node with
    | mk v w u cs =>
        simp only [MCTSNode.child_nodes] at h
        subst h
        rfl
  · intro h
    cases root_node with
    | mk v w u cs =>
        simp only [MCTSNode.child_nodes] at h ⊢
        cases cs with
        | nil => exact absurd rfl h
        | cons c rest =>
            refine ⟨(pyMax (fun p => p.2.visits) c rest).1,
                    (pyMax (fun p => p.2.visits) c rest).2, ?_, ?_, ?_⟩
            · simp [get_best_action, MCTSNode.child_nodes]
            · exact pyMax_mem _ rest c
            · intro b d hbd
              exact pyMax_le (fun p => p.2.visits) rest c (b, d) hbd

/-- Witness for C8 at concrete inputs: a childless root yields `none`,
and a root with children of visits 2, 3, 3 yields the action of the
first maximal child. -/
theorem get_best_action_max_visits_witness :
    get_best_action (MCTSNode.mk 0 0 ([] : List ℕ) []) = none
    ∧ ∃ a c, get_best_action
        (MCTSNode.mk 5 0 ([] : List ℕ)
          [(7, .mk 2 0 [] []), (8, .mk 3 0 [] []), (9, .mk 3 0 [] [])]) = some a
        ∧ (a, c) ∈ (MCTSNode.mk 5 0 ([] : List ℕ)
          [(7, .mk 2 0 [] []), (8, .mk 3 0 [] []), (9, .mk 3 0 [] [])]).child_nodes
        ∧ ∀ b d, (b, d) ∈ (MCTSNode.mk 5 0 ([] : List ℕ)
          [(7, .mk 2 0 [] []), (8, .mk 3 0 [] []), (9, .mk 3 0 [] [])]).child_nodes
          → d.visits ≤ c.visits :=
  ⟨(get_best_action_max_visits _).1 rfl,
   (get_best_action_max_visits _).2 (by intro h; cases h)⟩

/-- C3: confidence-bound selection gives zero-visit children unconditional
priority: whenever the sibling list contains at least one zero-visit child
and at least one nonzero-visit child, the child selected by
`max(…, key=ucb)` is never one with nonzero visits — a zero-visit child
scores `float('inf')` (`⊤`), a nonzero-visit child a finite float. -/
theorem selectChild_zero_visit_priority {α : Type}
    (parent_visits bot_identity : ℕ) (cs : List (α × MCTSNode α))
    (a b : α) (c d : MCTSNode α)
    (hzmem : (a, c) ∈ cs) (hzero : c.visits = 0)
    (hnmem : (b, d) ∈ cs) (hnz : d.visits ≠ 0) :
    ∃ x y, Vanilla.selectChild parent_visits bot_identity cs = some (x, y)
      ∧ y.visits = 0 := by
  cases cs with
  | nil => cases hzmem
  | cons e rest =>
      refine ⟨(pyMax (fun p : α × MCTSNode α =>
          Vanilla.ucb parent_visits p.2 bot_identity) e rest).1,
        (pyMax (fun p : α × MCTSNode α =>
          Vanilla.ucb parent_visits p.2 bot_identity) e rest).2, ?_, ?_⟩
      · simp [Vanilla.selectChild]
      · have hle0 := pyMax_le (fun p : α × MCTSNode α =>
          Vanilla.ucb parent_visits p.2 bot_identity) rest e (a, c) hzmem
        have hle : Vanilla.ucb parent_visits c bot_identity
            ≤ Vanilla.ucb parent_visits
              (pyMax (fun p : α × MCTSNode α =>
                Vanilla.ucb parent_visits p.2 bot_identity) e rest).2
              bot_identity := hle0
        have hkc : Vanilla.ucb parent_visits c bot_identity = ⊤ := by
          simp [Vanilla.ucb, hzero]
        rw [hkc] at hle
        have htop : Vanilla.ucb parent_visits
            (pyMax (fun p : α × MCTSNode α =>
              Vanilla.ucb parent_visits p.2 bot_identity) e rest).2 bot_identity
            = ⊤ := top_le_iff.mp hle
        by_contra hvz
        rw [Vanilla.ucb.eq_def, if_neg hvz] at htop
        by_cases hb : bot_identity = 1
        · rw [if_pos hb] at htop
          exact WithTop.coe_ne_top htop
        · rw [if_neg hb] at htop
          exact WithTop.coe_ne_top htop

/-- Witness for C3 at a concrete sibling list: a zero-visit child under
action 0 next to a 3-visit child under action 1. -/
theorem selectChild_zero_visit_priority_witness :
    ∃ x y, Vanilla.selectChild 5 1
        [((0 : ℕ), MCTSNode.mk 0 0 [] []), (1, MCTSNode.mk 3 1 [] [])]
        = some (x, y) ∧ y.visits = 0 :=
  selectChild_zero_visit_priority 5 1 _ 0 1 (MCTSNode.mk 0 0 [] [])
    (MCTSNode.mk 3 1 [] []) (List.mem_cons_self _ _) rfl
    (List.mem_cons.mpr (Or.inr (List.mem_cons_self _ _))) (by decide)

/-- C10: under exact arithmetic, `roulette_wheel_selection` invoked with a
non-empty probability mapping of total mass 1 — as built by the modified
`traverse_nodes`, whose mapping sums to 1 whenever the children's total
visit count is nonzero — and a threshold in [0, 1) always returns a key
of the mapping: the fall-through branch returning `none` is unreachable
under that precondition, since the final cumulative mass equals 1 ≥ any
threshold below 1. -/
theorem roulette_wheel_selection_total :
    (∀ (α : Type) (cs : List (α × MCTSNode α)),
        (cs.map fun c => c.2.visits).sum ≠ 0 →
        ((Modified.probabilitiesOf cs).map Prod.snd).sum = 1)
    ∧ (∀ (α : Type) (probabilities : List (α × ℚ)) (threshold : ℚ),
        probabilities ≠ [] →
        (probabilities.map Prod.snd).sum = 1 →
        0 ≤ threshold → threshold < 1 →
        ∃ a, Modified.roulette_wheel_selection probabilities threshold = some a
          ∧ a ∈ probabilities.map Prod.fst) := by
  constructor
  · exact fun α cs h => sum_probabilitiesOf cs h
  · intro α probs th hne hsum h0 h1
    have hth : th ≤ 0 + (probs.map Prod.snd).sum := by rw [hsum]; linarith
    exact rouletteLoop_total th probs 0 hne hth

/-- Witness for C10 on the spec's example probabilities
`[0.1, 0.3, 0.6]` with threshold `1/2`. -/
theorem roulette_wheel_selection_total_witness :
    ∃ a, Modified.roulette_wheel_selection
        (Modified.probabilitiesOf exampleChildren) (1/2) = some a
      ∧ a ∈ (Modified.probabilitiesOf exampleChildren).map Prod.fst :=
  roulette_wheel_selection_total.2 ℕ (Modified.probabilitiesOf exampleChildren)
    (1/2) (by simp [Modified.probabilitiesOf, exampleChildren])
    (by norm_num [Modified.probabilitiesOf, exampleChildren, MCTSNode.visits])
    (by norm_num) (by norm_num)

/-- C4: visit-proportional stochastic selection returns the first entry
in enumeration order whose cumulative probability mass reaches or exceeds
the threshold; on the spec's example — children with visit counts
`[10, 30, 60]`, hence probabilities `[0.1, 0.3, 0.6]` as built by the
modified `traverse_nodes` — a threshold draw of 0.05 selects the first
child (action 0) and a draw of 0.95 the third (action 2). -/
theorem roulette_first_reaching :
    (∀ (α : Type) (probs : List (α × ℚ)) (th : ℚ) (i : ℕ)
        (hi : i < probs.length),
        (∀ j, j < i → cumulMass probs (j + 1) < th) →
        th ≤ cumulMass probs (i + 1) →
        Modified.roulette_wheel_selection probs th = some (probs.get ⟨i, hi⟩).1)
    ∧ Modified.roulette_wheel_selection
        (Modified.probabilitiesOf exampleChildren) (1/20) = some 0
    ∧ Modified.roulette_wheel_selection
        (Modified.probabilitiesOf exampleChildren) (19/20) = some 2 := by
  refine ⟨?_,
    by norm_num [Modified.roulette_wheel_selection, Modified.rouletteLoop,
      Modified.probabilitiesOf, exampleChildren, MCTSNode.visits],
    by norm_num [Modified.roulette_wheel_selection, Modified.rouletteLoop,
      Modified.probabilitiesOf, exampleChildren, MCTSNode.visits]⟩
  intro α probs th i hi hlt hge
  have h := rouletteLoop_first th probs i hi 0
    (fun j hj => by simpa using hlt j hj) (by simpa using hge)
  simpa [Modified.roulette_wheel_selection] using h

/-- Witness for C4's universally quantified part at a concrete mapping:
probabilities `[1/2, 1/2]`, threshold `3/4`, reached first at index 1. -/
theorem roulette_first_reaching_witness :
    Modified.roulette_wheel_selection [((5 : ℕ), (1 : ℚ)/2), (6, 1/2)] (3/4)
      = some 6 :=
  roulette_first_reaching.1 ℕ [(5, 1/2), (6, 1/2)] (3/4) 1 (by simp)
    (fun j hj => by
      have hj0 : j = 0 := Nat.lt_one_iff.mp hj
      subst hj0
      norm_num [cumulMass])
    (by norm_num [cumulMass])

theorem dictGet_dictInsert_self {α β : Type} [DecidableEq α] (k : α) (v : β) :
    ∀ (l : List (α × β)), dictGet k (dictInsert k v l) = some v := by
  intro l
  induction l with
  | nil => simp [dictGet, dictInsert]
  | cons c rest ih =>
      cases c with
      | mk k' v' =>
          by_cases hk : k' = k
          · simp [dictInsert, dictGet, hk]
          · simp only [dictInsert, hk, if_neg, not_false_iff, dictGet]
            exact ih

theorem dictGet_dictInsert_ne {α β : Type} [DecidableEq α] {b k : α} (v : β)
    (hb : b ≠ k) :
    ∀ (l : List (α × β)), dictGet b (dictInsert k v l) = dictGet b l := by
  intro l
  have hkb : ¬ k = b := fun hh => hb hh.symm
  induction l with
  | nil => simp [dictGet, dictInsert, hkb]
  | cons c rest ih =>
      cases c with
      | mk k' v' =>
          by_cases hk : k' = k
          · subst hk
            simp [dictInsert, dictGet, hkb]
          · simp only [dictInsert, hk, if_neg, not_false_iff, dictGet]
            by_cases hkb : k' = b
            · simp [hkb]
            · simp only [hkb, if_neg, not_false_iff]
              exact ih

theorem dictInsert_of_get_none {α β : Type} [DecidableEq α] (k : α) (v : β) :
    ∀ (l : List (α × β)), dictGet k l = none → dictInsert k v l = l ++ [(k, v)] := by
  intro l
  induction l with
  | nil => intro _; rfl
  | cons c rest ih =>
      intro h
      cases c with
      | mk k' v' =>
          simp only [dictGet] at h
          by_cases hk : k' = k
          · rw [if_pos hk] at h; cases h
          · rw [if_neg hk] at h
            simp only [dictInsert, hk, if_neg, not_false_iff, List.cons_append,
              List.cons.injEq, true_and]
            exact ih h

theorem choose_mem {α : Type} (idx : ℕ) (x : α) (xs : List α) :
    choose idx x xs ∈ x :: xs :=
  List.get_mem _ _ _

/-- C6: expanding a node with a non-empty untried-action list removes
exactly one action from that list, records exactly one fresh child under
that action (its action list being the legal actions of the resulting
state, its counters zero, its child map empty), leaves the node's visit
and win counters and all other children unchanged, and returns the new
child with its state; expanding a node with an empty untried-action list
is a no-op returning the node and state unchanged. -/
theorem expand_leaf_spec {σ α : Type} [DecidableEq α] (g : Game σ α)
    (idx : ℕ) (t : MCTSNode α) (s : σ) :
    (t.untried_actions = [] →
      expand_leaf g idx t s = (t, t, [], s))
    ∧ (∀ (x : α) (xs : List α), t.untried_actions = x :: xs →
        expand_leaf g idx t s =
          (MCTSNode.mk t.visits t.wins ((x :: xs).erase (choose idx x xs))
            (dictInsert (choose idx x xs)
              (MCTSNode.new (g.legal_actions (g.next_state s (choose idx x xs))))
              t.child_nodes),
           MCTSNode.new (g.legal_actions (g.next_state s (choose idx x xs))),
           [choose idx x xs],
           g.next_state s (choose idx x xs))
        ∧ ((x :: xs).erase (choose idx x xs)).length + 1 = (x :: xs).length
        ∧ (MCTSNode.new (g.legal_actions (g.next_state s (choose idx x xs)))).untried_actions
            = g.legal_actions (g.next_state s (choose idx x xs))
        ∧ (MCTSNode.new (g.legal_actions (g.next_state s (choose idx x xs)))).visits = 0
        ∧ (MCTSNode.new (g.legal_actions (g.next_state s (choose idx x xs)))).wins = 0
        ∧ (MCTSNode.new (g.legal_actions (g.next_state s (choose idx x xs)))).child_nodes = []
        ∧ dictGet (choose idx x xs)
            (dictInsert (choose idx x xs)
              (MCTSNode.new (g.legal_actions (g.next_state s (choose idx x xs))))
              t.child_nodes)
            = some (MCTSNode.new (g.legal_actions (g.next_state s (choose idx x xs))))
        ∧ (∀ b, b ≠ choose idx x xs →
            dictGet b (dictInsert (choose idx x xs)
              (MCTSNode.new (g.legal_actions (g.next_state s (choose idx x xs))))
              t.child_nodes)
            = dictGet b t.child_nodes)
        ∧ (dictGet (choose idx x xs) t.child_nodes = none →
            dictInsert (choose idx x xs)
              (MCTSNode.new (g.legal_actions (g.next_state s (choose idx x xs))))
              t.child_nodes
            = t.child_nodes
                ++ [(choose idx x xs,
                     MCTSNode.new (g.legal_actions (g.next_state s (choose idx x xs))))])) := by
  constructor
  · intro h
    cases t with
    | mk v w u cs =>
        simp only [MCTSNode.untried_actions] at h
        subst h
        rfl
  · intro x xs h
    cases t with
    | mk v w u cs =>
        simp only [MCTSNode.untried_actions] at h
        subst h
        refine ⟨rfl, ?_, rfl, rfl, rfl, rfl,
          dictGet_dictInsert_self _ _ _,
          fun b hb => dictGet_dictInsert_ne _ hb _,
          fun hn => dictInsert_of_get_none _ _ _ hn⟩
        exact List.length_erase_add_one (choose_mem idx x xs)

/-- Witness for C6 at concrete inputs: a node with untried actions
`[3, 4]` (index draw 0 picks action 3) over a two-action game, and a
fully expanded node as the no-op case. -/
theorem expand_leaf_spec_witness :
    (expand_leaf
        { is_ended := fun _ => false, legal_actions := fun _ => [5, 6],
          next_state := fun s _ => s, current_player := fun _ => 1,
          points_values := fun _ => none }
        0 (MCTSNode.mk 1 1 ([] : List ℕ) []) ()
      = (MCTSNode.mk 1 1 [] [], MCTSNode.mk 1 1 [] [], [], ()))
    ∧ expand_leaf
        { is_ended := fun _ => false, legal_actions := fun _ => [5, 6],
          next_state := fun s _ => s, current_player := fun _ => 1,
          points_values := fun _ => none }
        0 (MCTSNode.mk 1 1 [3, 4] []) ()
      = (MCTSNode.mk 1 1 ([3, 4].erase (choose 0 3 [4]))
          (dictInsert (choose 0 3 [4]) (MCTSNode.new [5, 6]) []),
         MCTSNode.new [5, 6], [choose 0 3 [4]], ()) :=
  ⟨(expand_leaf_spec _ 0 _ ()).1 rfl,
   ((expand_leaf_spec _ 0 (MCTSNode.mk 1 1 [3, 4] []) ()).2 3 [4] rfl).1⟩

theorem dictGet_updateChild_self {α β : Type} [DecidableEq α] (a : α)
    (f : β → β) :
    ∀ (l : List (α × β)), dictGet a (updateChild a f l) = (dictGet a l).map f := by
  intro l
  induction l with
  | nil => rfl
  | cons c rest ih =>
      cases c with
      | mk k' v' =>
          by_cases hk : k' = a
          · simp [updateChild, dictGet, hk]
          · simp only [updateChild, hk, if_neg, not_false_iff, dictGet]
            exact ih

theorem dictGet_updateChild_ne {α β : Type} [DecidableEq α] {b a : α}
    (f : β → β) (hb : b ≠ a) :
    ∀ (l : List (α × β)), dictGet b (updateChild a f l) = dictGet b l := by
  intro l
  induction l with
  | nil => rfl
  | cons c rest ih =>
      cases c with
      | mk k' v' =>
          by_cases hk : k' = a
          · subst hk
            have hkb : ¬ k' = b := fun hh => hb hh.symm
            simp [updateChild, dictGet, hkb]
          · simp only [updateChild, hk, if_neg, not_false_iff, dictGet]
            by_cases hkb : k' = b
            · simp [hkb]
            · simp only [hkb, if_neg, not_false_iff]
              exact ih

theorem backpropagate_visits {α : Type} [DecidableEq α] (won : Bool)
    (t : MCTSNode α) (r : List α) :
    (backpropagate won t r).visits = t.visits + 1 := by
  cases t with
  | mk v w u cs => cases r <;> rfl

theorem backpropagate_wins {α : Type} [DecidableEq α] (won : Bool)
    (t : MCTSNode α) (r : List α) :
    (backpropagate won t r).wins = t.wins + if won then 1 else 0 := by
  cases t with
  | mk v w u cs => cases r <;> rfl

theorem backpropagate_untried {α : Type} [DecidableEq α] (won : Bool)
    (t : MCTSNode α) (r : List α) :
    (backpropagate won t r).untried_actions = t.untried_actions := by
  cases t with
  | mk v w u cs => cases r <;> rfl

theorem subtreeAt_cons_none {α : Type} [DecidableEq α] {a : α} {v w : ℕ}
    {u : List α} {cs : List (α × MCTSNode α)} (p : List α)
    (hg : dictGet a cs = none) :
    subtreeAt (MCTSNode.mk v w u cs) (a :: p) = none := by
  simp [subtreeAt, MCTSNode.child_nodes, hg]

theorem subtreeAt_cons_some {α : Type} [DecidableEq α] {a : α} {v w : ℕ}
    {u : List α} {cs : List (α × MCTSNode α)} {c : MCTSNode α} (p : List α)
    (hg : dictGet a cs = some c) :
    subtreeAt (MCTSNode.mk v w u cs) (a :: p) = subtreeAt c p := by
  simp [subtreeAt, MCTSNode.child_nodes, hg]

theorem backpropagate_cons {α : Type} [DecidableEq α] (won : Bool)
    (v w : ℕ) (u : List α) (cs : List (α × MCTSNode α)) (a : α) (p : List α) :
    backpropagate won (MCTSNode.mk v w u cs) (a :: p)
      = MCTSNode.mk (v + 1) (w + if won then 1 else 0) u
          (updateChild a (fun c => backpropagate won c p) cs) := rfl

theorem subtreeAt_backpropagate_append {α : Type} [DecidableEq α] (won : Bool) :
    ∀ (q r : List α) (t : MCTSNode α),
      subtreeAt (backpropagate won t (q ++ r)) q
        = (subtreeAt t q).map fun c => backpropagate won c r := by
  intro q
  induction q with
  | nil => intro r t; rfl
  | cons a q' ih =>
      intro r t
      cases t with
      | mk v w u cs =>
          rw [List.cons_append, backpropagate_cons]
          cases hg : dictGet a cs with
          | none =>
              have h1 : dictGet a
                  (updateChild a (fun c => backpropagate won c (q' ++ r)) cs)
                  = none := by
                rw [dictGet_updateChild_self, hg]
                rfl
              rw [subtreeAt_cons_none q' h1, subtreeAt_cons_none q' hg]
              rfl
          | some c =>
              have h1 : dictGet a
                  (updateChild a (fun c => backpropagate won c (q' ++ r)) cs)
                  = some (backpropagate won c (q' ++ r)) := by
                rw [dictGet_updateChild_self, hg]
                rfl
              rw [subtreeAt_cons_some q' h1, subtreeAt_cons_some q' hg]
              exact ih r c

theorem subtreeAt_backpropagate_not_prefix {α : Type} [DecidableEq α] (won : Bool) :
    ∀ (q p : List α) (t : MCTSNode α), ¬ q <+: p →
      subtreeAt (backpropagate won t p) q = subtreeAt t q := by
  intro q
  induction q with
  | nil => intro p t h; exact absurd ⟨p, rfl⟩ h
  | cons b q' ih =>
      intro p t h
      cases t with
      | mk v w u cs =>
          cases p with
          | nil =>
              show subtreeAt (MCTSNode.mk (v + 1) (w + if won then 1 else 0)
                u cs) (b :: q') = _
              cases hg : dictGet b cs with
              | none => rw [subtreeAt_cons_none q' hg, subtreeAt_cons_none q' hg]
              | some c => rw [subtreeAt_cons_some q' hg, subtreeAt_cons_some q' hg]
          | cons a p' =>
              rw [backpropagate_cons]
              by_cases hba : b = a
              · subst hba
                have hq' : ¬ q' <+: p' := by
                  intro hq
                  exact h (List.cons_prefix_cons.mpr ⟨rfl, hq⟩)
                cases hg : dictGet b cs with
                | none =>
                    have h1 : dictGet b
                        (updateChild b (fun c => backpropagate won c p') cs)
                        = none := by
                      rw [dictGet_updateChild_self, hg]
                      rfl
                    rw [subtreeAt_cons_none q' h1, subtreeAt_cons_none q' hg]
                | some c =>
                    have h1 : dictGet b
                        (updateChild b (fun c => backpropagate won c p') cs)
                        = some (backpropagate won c p') := by
                      rw [dictGet_updateChild_self, hg]
                      rfl
                    rw [subtreeAt_cons_some q' h1, subtreeAt_cons_some q' hg]
                    exact ih p' c hq'
              · have h1 : dictGet b
                    (updateChild a (fun c => backpropagate won c p') cs)
                    = dictGet b cs :=
                  dictGet_updateChild_ne (fun c => backpropagate won c p') hba cs
                cases hg : dictGet b cs with
                | none =>
                    rw [subtreeAt_cons_none q' (h1.trans hg),
                      subtreeAt_cons_none q' hg]
                | some c =>
                    rw [subtreeAt_cons_some q' (h1.trans hg),
                      subtreeAt_cons_some q' hg]

/-- C7: backpropagation from the node at path `p` increments `visits` by
exactly 1 at that node and at every ancestor up to and including the root
(the nodes at the prefixes of `p`), increments `wins` by exactly 1 at
exactly those nodes if and only if the single outcome boolean is a win
(the outcome is applied uniformly along the path, not re-evaluated per
node), leaves every subtree off the path untouched, and never changes any
node's untried-action list. -/
theorem backpropagate_path_effect {α : Type} [DecidableEq α] (won : Bool)
    (t : MCTSNode α) (p : List α) :
    (∀ q, q <+: p →
      visitsAt (backpropagate won t p) q = (visitsAt t q).map (· + 1))
    ∧ (∀ q, q <+: p →
      winsAt (backpropagate won t p) q
        = (winsAt t q).map (· + if won then 1 else 0))
    ∧ (∀ q, ¬ q <+: p →
      subtreeAt (backpropagate won t p) q = subtreeAt t q)
    ∧ (∀ q, untriedAt (backpropagate won t p) q = untriedAt t q) := by
  refine ⟨?_, ?_, fun q h => subtreeAt_backpropagate_not_prefix won q p t h, ?_⟩
  · intro q hq
    obtain ⟨r, rfl⟩ := hq
    rw [visitsAt, subtreeAt_backpropagate_append, visitsAt]
    cases subtreeAt t q with
    | none => rfl
    | some c => simp [backpropagate_visits]
  · intro q hq
    obtain ⟨r, rfl⟩ := hq
    rw [winsAt, subtreeAt_backpropagate_append, winsAt]
    cases subtreeAt t q with
    | none => rfl
    | some c => simp [backpropagate_wins]
  · intro q
    by_cases hq : q <+: p
    · obtain ⟨r, rfl⟩ := hq
      rw [untriedAt, subtreeAt_backpropagate_append, untriedAt]
      cases subtreeAt t q with
      | none => rfl
      | some c => simp [backpropagate_untried]
    · rw [untriedAt, subtreeAt_backpropagate_not_prefix won q p t hq, untriedAt]

/-- Witness for C7 on a concrete two-level chain: backpropagating a win
from the node at path `[1, 2]` increments both counters at the root, at
`[1]` and at `[1, 2]`, and leaves the sibling at `[3]` untouched. -/
theorem backpropagate_path_effect_witness :
    (visitsAt (backpropagate true
        (MCTSNode.mk 5 2 ([] : List ℕ)
          [(1, .mk 3 1 [] [(2, .mk 1 0 [] [])]), (3, .mk 1 1 [] [])]) [1, 2]) [1]
      = (visitsAt (MCTSNode.mk 5 2 ([] : List ℕ)
          [(1, .mk 3 1 [] [(2, .mk 1 0 [] [])]), (3, .mk 1 1 [] [])]) [1]).map (· + 1))
    ∧ (winsAt (backpropagate true
        (MCTSNode.mk 5 2 ([] : List ℕ)
          [(1, .mk 3 1 [] [(2, .mk 1 0 [] [])]), (3, .mk 1 1 [] [])]) [1, 2]) [1, 2]
      = (winsAt (MCTSNode.mk 5 2 ([] : List ℕ)
          [(1, .mk 3 1 [] [(2, .mk 1 0 [] [])]), (3, .mk 1 1 [] [])]) [1, 2]).map
          (· + if true then 1 else 0))
    ∧ subtreeAt (backpropagate true
        (MCTSNode.mk 5 2 ([] : List ℕ)
          [(1, .mk 3 1 [] [(2, .mk 1 0 [] [])]), (3, .mk 1 1 [] [])]) [1, 2]) [3]
      = subtreeAt (MCTSNode.mk 5 2 ([] : List ℕ)
          [(1, .mk 3 1 [] [(2, .mk 1 0 [] [])]), (3, .mk 1 1 [] [])]) [3] :=
  ⟨(backpropagate_path_effect true _ [1, 2]).1 [1] ⟨[2], rfl⟩,
   (backpropagate_path_effect true _ [1, 2]).2.1 [1, 2] ⟨[], rfl⟩,
   (backpropagate_path_effect true _ [1, 2]).2.2.1 [3] (by decide)⟩

theorem traverse_vanilla_exit {σ α : Type} [DecidableEq α] (g : Game σ α)
    (bot_identity : ℕ) (t : MCTSNode α) (s : σ) (path : List α)
    (h : ¬ (g.is_ended s = false ∧ t.untried_actions = [])) :
    Vanilla.traverse_nodes g bot_identity t s path = (path, t, s) := by
  rw [Vanilla.traverse_nodes.eq_def]
  exact if_neg h

theorem traverse_vanilla_stop {σ α : Type} [DecidableEq α] (g : Game σ α)
    (bot_identity : ℕ) (t : MCTSNode α) (s : σ) (path : List α)
    (hc : g.is_ended s = false ∧ t.untried_actions = [])
    (hs : t.child_nodes.isEmpty = true ∨ allZero t.child_nodes = true) :
    Vanilla.traverse_nodes g bot_identity t s path = (path, t, s) := by
  rw [Vanilla.traverse_nodes.eq_def]
  dsimp only
  rw [if_pos hc, if_pos hs]

theorem traverse_vanilla_step {σ α : Type} [DecidableEq α] (g : Game σ α)
    (bot_identity : ℕ) (t : MCTSNode α) (s : σ) (path : List α)
    (hc : g.is_ended s = false ∧ t.untried_actions = [])
    (hs : ¬ (t.child_nodes.isEmpty = true ∨ allZero t.child_nodes = true))
    {a : α} {c : MCTSNode α}
    (hsel : Vanilla.selectChild t.visits bot_identity t.child_nodes = some (a, c)) :
    Vanilla.traverse_nodes g bot_identity t s path
      = Vanilla.traverse_nodes g bot_identity c (g.next_state s a) (path ++ [a]) := by
  rw [Vanilla.traverse_nodes.eq_def]
  dsimp only
  rw [if_pos hc, if_neg hs]
  split
  · next h' => rw [hsel] at h'; cases h'
  · next a' c' h' =>
      rw [hsel] at h'
      simp only [Option.some.injEq, Prod.mk.injEq] at h'
      rw [h'.1, h'.2]

theorem traverse_modified_exit {σ α : Type} [DecidableEq α] (g : Game σ α)
    (ths : ℕ → ℚ) (t : MCTSNode α) (s : σ) (path : List α) (depth : ℕ)
    (h : ¬ (g.is_ended s = false ∧ t.untried_actions = [])) :
    Modified.traverse_nodes g ths t s path depth = some (path, t, s) := by
  rw [Modified.traverse_nodes.eq_def]
  exact if_neg h

theorem traverse_modified_stop {σ α : Type} [DecidableEq α] (g : Game σ α)
    (ths : ℕ → ℚ) (t : MCTSNode α) (s : σ) (path : List α) (depth : ℕ)
    (hc : g.is_ended s = false ∧ t.untried_actions = [])
    (hs : t.child_nodes.isEmpty = true ∨ allZero t.child_nodes = true) :
    Modified.traverse_nodes g ths t s path depth = some (path, t, s) := by
  rw [Modified.traverse_nodes.eq_def]
  dsimp only
  rw [if_pos hc, if_pos hs]

theorem traverse_modified_none_roulette {σ α : Type} [DecidableEq α]
    (g : Game σ α) (ths : ℕ → ℚ) (t : MCTSNode α) (s : σ) (path : List α)
    (depth : ℕ)
    (hc : g.is_ended s = false ∧ t.untried_actions = [])
    (hs : ¬ (t.child_nodes.isEmpty = true ∨ allZero t.child_nodes = true))
    (hsel : Modified.roulette_wheel_selection
        (Modified.probabilitiesOf t.child_nodes) (ths depth) = none) :
    Modified.traverse_nodes g ths t s path depth = none := by
  rw [Modified.traverse_nodes.eq_def]
  dsimp only
  rw [if_pos hc, if_neg hs]
  split
  · rfl
  · next a' h'' =>
      rw [hsel] at h''
      cases h''

theorem traverse_modified_none_key {σ α : Type} [DecidableEq α]
    (g : Game σ α) (ths : ℕ → ℚ) (t : MCTSNode α) (s : σ) (path : List α)
    (depth : ℕ)
    (hc : g.is_ended s = false ∧ t.untried_actions = [])
    (hs : ¬ (t.child_nodes.isEmpty = true ∨ allZero t.child_nodes = true))
    {a : α}
    (hsel : Modified.roulette_wheel_selection
        (Modified.probabilitiesOf t.child_nodes) (ths depth) = some a)
    (hget : dictGet a t.child_nodes = none) :
    Modified.traverse_nodes g ths t s path depth = none := by
  rw [Modified.traverse_nodes.eq_def]
  dsimp only
  rw [if_pos hc, if_neg hs]
  split
  · next h'' => rw [hsel] at h''
  · next a' h'' =>
      rw [hsel] at h''
      cases h''
      split
      · rfl
      · next c' h''' =>
          rw [hget] at h'''
          cases h'''

theorem traverse_modified_step {σ α : Type} [DecidableEq α] (g : Game σ α)
    (ths : ℕ → ℚ) (t : MCTSNode α) (s : σ) (path : List α) (depth : ℕ)
    (hc : g.is_ended s = false ∧ t.untried_actions = [])
    (hs : ¬ (t.child_nodes.isEmpty = true ∨ allZero t.child_nodes = true))
    {a : α} {c : MCTSNode α}
    (hsel : Modified.roulette_wheel_selection
        (Modified.probabilitiesOf t.child_nodes) (ths depth) = some a)
    (hget : dictGet a t.child_nodes = some c) :
    Modified.traverse_nodes g ths t s path depth
      = Modified.traverse_nodes g ths c (g.next_state s a)
          (path ++ [a]) (depth + 1) := by
  rw [Modified.traverse_nodes.eq_def]
  dsimp only
  rw [if_pos hc, if_neg hs]
  split
  · next h'' => rw [hsel] at h''; cases h''
  · next a' h'' =>
      rw [hsel] at h''
      cases h''
      split
      · next h''' =>
          rw [hget] at h'''
          cases h'''
      · next c' h''' =>
          rw [hget] at h'''
          cases h'''
          rfl

theorem traverse_vanilla_result {σ α : Type} [DecidableEq α] (g : Game σ α)
    (bot_identity : ℕ) :
    ∀ (t : MCTSNode α) (s : σ) (path : List α),
      g.is_ended (Vanilla.traverse_nodes g bot_identity t s path).2.2 = true
      ∨ (Vanilla.traverse_nodes g bot_identity t s path).2.1.untried_actions ≠ []
      ∨ (Vanilla.traverse_nodes g bot_identity t s path).2.1.child_nodes.isEmpty
          = true
      ∨ allZero (Vanilla.traverse_nodes g bot_identity t s path).2.1.child_nodes
          = true := by
  intro t s path
  induction t, s, path using Vanilla.traverse_nodes.induct g bot_identity with
  | case1 t s path hc hs =>
      rw [traverse_vanilla_stop g bot_identity t s path hc hs]
      rcases hs with hs | hs
      · exact Or.inr (Or.inr (Or.inl hs))
      · exact Or.inr (Or.inr (Or.inr hs))
  | case2 t s path hc hs hsel =>
      exfalso
      cases hcs : t.child_nodes with
      | nil => exact hs (Or.inl (by rw [hcs]; rfl))
      | cons e rest =>
          rw [hcs] at hsel
          simp [Vanilla.selectChild] at hsel
  | case3 t s path hc hs a c hsel ih =>
      rw [traverse_vanilla_step g bot_identity t s path hc hs hsel]
      exact ih
  | case4 t s path h =>
      rw [traverse_vanilla_exit g bot_identity t s path h]
      by_cases he : g.is_ended s = true
      · exact Or.inl he
      · refine Or.inr (Or.inl ?_)
        intro hu
        exact h ⟨by simpa using he, hu⟩

theorem traverse_modified_result {σ α : Type} [DecidableEq α] (g : Game σ α)
    (ths : ℕ → ℚ) :
    ∀ (t : MCTSNode α) (s : σ) (path : List α) (depth : ℕ),
      ∀ r, Modified.traverse_nodes g ths t s path depth = some r →
        g.is_ended r.2.2 = true
        ∨ r.2.1.untried_actions ≠ []
        ∨ r.2.1.child_nodes.isEmpty = true
        ∨ allZero r.2.1.child_nodes = true := by
  intro t s path depth
  induction t, s, path, depth using Modified.traverse_nodes.induct g ths with
  | case1 t s path depth hc hs =>
      intro r hr
      rw [traverse_modified_stop g ths t s path depth hc hs] at hr
      cases hr
      rcases hs with hs | hs
      · exact Or.inr (Or.inr (Or.inl hs))
      · exact Or.inr (Or.inr (Or.inr hs))
  | case2 t s path depth hc hs prob hroul =>
      intro r hr
      rw [traverse_modified_none_roulette g ths t s path depth hc hs hroul] at hr
      cases hr
  | case3 t s path depth hc hs prob a hroul hget =>
      intro r hr
      rw [traverse_modified_none_key g ths t s path depth hc hs hroul hget] at hr
      cases hr
  | case4 t s path depth hc hs prob a hroul c hget ih =>
      intro r hr
      rw [traverse_modified_step g ths t s path depth hc hs hroul hget] at hr
      exact ih r hr
  | case5 t s path depth h =>
      intro r hr
      rw [traverse_modified_exit g ths t s path depth h] at hr
      cases hr
      by_cases he : g.is_ended s = true
      · exact Or.inl he
      · refine Or.inr (Or.inl ?_)
        intro hu
        exact h ⟨by simpa using he, hu⟩

/-- C5: tree descent (both variants) stops exactly when the current state
is terminal or the current node has an untried action, and, before ever
evaluating the confidence-bound or stochastic formula, stops immediately
when the node has no children or all children have zero visits.  The
conjuncts state: immediate return when terminal or not fully expanded;
immediate return in the no-children / all-zero-visits special case (in the
modified variant the result is `some` there, i.e. the crash-prone roulette
formula is never consulted); when none of the stop conditions hold the
traversal takes a descent step into the selected child; and every reached
node satisfies the stopping disjunction. -/
theorem traverse_nodes_stopping {σ α : Type} [DecidableEq α] (g : Game σ α)
    (bot_identity : ℕ) (ths : ℕ → ℚ) :
    (∀ (t : MCTSNode α) (s : σ) (path : List α),
      (g.is_ended s = true ∨ t.untried_actions ≠ [] →
        Vanilla.traverse_nodes g bot_identity t s path = (path, t, s))
      ∧ (g.is_ended s = false → t.untried_actions = [] →
          t.child_nodes.isEmpty = true ∨ allZero t.child_nodes = true →
          Vanilla.traverse_nodes g bot_identity t s path = (path, t, s))
      ∧ (∀ a c, g.is_ended s = false → t.untried_actions = [] →
          ¬ (t.child_nodes.isEmpty = true ∨ allZero t.child_nodes = true) →
          Vanilla.selectChild t.visits bot_identity t.child_nodes = some (a, c) →
          Vanilla.traverse_nodes g bot_identity t s path
            = Vanilla.traverse_nodes g bot_identity c (g.next_state s a)
                (path ++ [a]))
      ∧ (g.is_ended (Vanilla.traverse_nodes g bot_identity t s path).2.2 = true
          ∨ (Vanilla.traverse_nodes g bot_identity t s path).2.1.untried_actions
              ≠ []
          ∨ (Vanilla.traverse_nodes g bot_identity t s
              path).2.1.child_nodes.isEmpty = true
          ∨ allZero (Vanilla.traverse_nodes g bot_identity t s
              path).2.1.child_nodes = true))
    ∧ (∀ (t : MCTSNode α) (s : σ) (path : List α) (depth : ℕ),
      (g.is_ended s = true ∨ t.untried_actions ≠ [] →
        Modified.traverse_nodes g ths t s path depth = some (path, t, s))
      ∧ (g.is_ended s = false → t.untried_actions = [] →
          t.child_nodes.isEmpty = true ∨ allZero t.child_nodes = true →
          Modified.traverse_nodes g ths t s path depth = some (path, t, s))
      ∧ (∀ a c, g.is_ended s = false → t.untried_actions = [] →
          ¬ (t.child_nodes.isEmpty = true ∨ allZero t.child_nodes = true) →
          Modified.roulette_wheel_selection
            (Modified.probabilitiesOf t.child_nodes) (ths depth) = some a →
          dictGet a t.child_nodes = some c →
          Modified.traverse_nodes g ths t s path depth
            = Modified.traverse_nodes g ths c (g.next_state s a)
                (path ++ [a]) (depth + 1))
      ∧ (∀ r, Modified.traverse_nodes g ths t s path depth = some r →
          g.is_ended r.2.2 = true
          ∨ r.2.1.untried_actions ≠ []
          ∨ r.2.1.child_nodes.isEmpty = true
          ∨ allZero r.2.1.child_nodes = true)) := by
  constructor
  · intro t s path
    refine ⟨?_, ?_, ?_, traverse_vanilla_result g bot_identity t s path⟩
    · intro h
      refine traverse_vanilla_exit g bot_identity t s path ?_
      rintro ⟨he, hu⟩
      rcases h with h | h
      · rw [h] at he; cases he
      · exact h hu
    · intro he hu hs
      exact traverse_vanilla_stop g bot_identity t s path ⟨he, hu⟩ hs
    · intro a c he hu hs hsel
      exact traverse_vanilla_step g bot_identity t s path ⟨he, hu⟩ hs hsel
  · intro t s path depth
    refine ⟨?_, ?_, ?_, traverse_modified_result g ths t s path depth⟩
    · intro h
      refine traverse_modified_exit g ths t s path depth ?_
      rintro ⟨he, hu⟩
      rcases h with h | h
      · rw [h] at he; cases he
      · exact h hu
    · intro he hu hs
      exact traverse_modified_stop g ths t s path depth ⟨he, hu⟩ hs
    · intro a c he hu hs hsel hget
      exact traverse_modified_step g ths t s path depth ⟨he, hu⟩ hs hsel hget

theorem allWV_mk {α : Type} (v w : ℕ) (u : List α) (cs : List (α × MCTSNode α)) :
    allWV (MCTSNode.mk v w u cs) = (decide (w ≤ v) && allWVList cs) := by
  simp [allWV]

theorem allWVList_cons {α : Type} (c : α × MCTSNode α)
    (rest : List (α × MCTSNode α)) :
    allWVList (c :: rest) = (allWV c.2 && allWVList rest) := by
  simp [allWVList]

theorem allWVList_mem {α : Type} :
    ∀ {l : List (α × MCTSNode α)}, allWVList l = true →
      ∀ {x : α × MCTSNode α}, x ∈ l → allWV x.2 = true := by
  intro l
  induction l with
  | nil => intro _ x hx; cases hx
  | cons c rest ih =>
      intro h x hx
      rw [allWVList_cons, Bool.and_eq_true] at h
      rcases List.mem_cons.mp hx with h1 | h1
      · rw [h1]; exact h.1
      · exact ih h.2 h1

theorem allWV_child {α : Type} {t : MCTSNode α} (h : allWV t = true)
    {a : α} {c : MCTSNode α} (hm : (a, c) ∈ t.child_nodes) :
    allWV c = true := by
  cases t with
  | mk v w u cs =>
      rw [allWV_mk, Bool.and_eq_true] at h
      exact allWVList_mem h.2 hm

theorem allWVList_updateChild {α : Type} [DecidableEq α] {f : MCTSNode α → MCTSNode α}
    (hf : ∀ c, allWV c = true → allWV (f c) = true) (k : α) :
    ∀ {l : List (α × MCTSNode α)}, allWVList l = true →
      allWVList (updateChild k f l) = true := by
  intro l
  induction l with
  | nil => intro h; exact h
  | cons c rest ih =>
      intro h
      rw [allWVList_cons, Bool.and_eq_true] at h
      cases c with
      | mk k' v' =>
          by_cases hk : k' = k
          · simp only [updateChild, hk, if_pos]
            rw [allWVList_cons, Bool.and_eq_true]
            exact ⟨hf _ h.1, h.2⟩
          · simp only [updateChild, hk, if_neg, not_false_iff]
            rw [allWVList_cons, Bool.and_eq_true]
            exact ⟨h.1, ih h.2⟩

theorem allWVList_dictInsert {α : Type} [DecidableEq α] {v' : MCTSNode α}
    (hv : allWV v' = true) (k : α) :
    ∀ {l : List (α × MCTSNode α)}, allWVList l = true →
      allWVList (dictInsert k v' l) = true := by
  intro l
  induction l with
  | nil =>
      intro _
      rw [dictInsert, allWVList_cons, Bool.and_eq_true]
      exact ⟨hv, rfl⟩
  | cons c rest ih =>
      intro h
      rw [allWVList_cons, Bool.and_eq_true] at h
      cases c with
      | mk k' w' =>
          by_cases hk : k' = k
          · simp only [dictInsert, hk, if_pos]
            rw [allWVList_cons, Bool.and_eq_true]
            exact ⟨hv, h.2⟩
          · simp only [dictInsert, hk, if_neg, not_false_iff]
            rw [allWVList_cons, Bool.and_eq_true]
            exact ⟨h.1, ih h.2⟩

theorem allWV_new {α : Type} (acts : List α) :
    allWV (MCTSNode.new acts) = true := by
  rw [MCTSNode.new, allWV_mk]
  simp [allWVList]

theorem allWV_backpropagate {α : Type} [DecidableEq α] (won : Bool) :
    ∀ (p : List α) (t : MCTSNode α), allWV t = true →
      allWV (backpropagate won t p) = true := by
  intro p
  induction p with
  | nil =>
      intro t h
      cases t with
      | mk v w u cs =>
          rw [allWV_mk, Bool.and_eq_true] at h
          show allWV (MCTSNode.mk (v + 1) (w + if won then 1 else 0) u cs) = true
          rw [allWV_mk, Bool.and_eq_true]
          refine ⟨?_, h.2⟩
          have h1 := h.1
          rw [decide_eq_true_iff] at h1 ⊢
          cases won <;> simp <;> omega
  | cons a p' ih =>
      intro t h
      cases t with
      | mk v w u cs =>
          rw [allWV_mk, Bool.and_eq_true] at h
          rw [backpropagate_cons, allWV_mk, Bool.and_eq_true]
          constructor
          · have h1 := h.1
            rw [decide_eq_true_iff] at h1 ⊢
            cases won <;> simp <;> omega
          · exact allWVList_updateChild (fun c hc => ih c hc) a h.2

theorem allWV_expand_leaf {σ α : Type} [DecidableEq α] (g : Game σ α)
    (idx : ℕ) (t : MCTSNode α) (s : σ) (h : allWV t = true) :
    allWV (expand_leaf g idx t s).1 = true := by
  cases t with
  | mk v w u cs =>
      cases u with
      | nil => exact h
      | cons x xs =>
          rw [allWV_mk, Bool.and_eq_true] at h
          show allWV (MCTSNode.mk v w _ _) = true
          rw [allWV_mk, Bool.and_eq_true]
          exact ⟨h.1, allWVList_dictInsert (allWV_new _) _ h.2⟩

theorem allWV_updateAt {α : Type} [DecidableEq α]
    {f : MCTSNode α → MCTSNode α}
    (hf : ∀ c, allWV c = true → allWV (f c) = true) :
    ∀ (p : List α) (t : MCTSNode α), allWV t = true →
      allWV (updateAt t p f) = true := by
  intro p
  induction p with
  | nil =>
      intro t h
      cases t with
      | mk v w u cs => exact hf _ h
  | cons a p' ih =>
      intro t h
      cases t with
      | mk v w u cs =>
          rw [allWV_mk, Bool.and_eq_true] at h
          show allWV (MCTSNode.mk v w u (updateChild a _ cs)) = true
          rw [allWV_mk, Bool.and_eq_true]
          exact ⟨h.1, allWVList_updateChild (fun c hc => ih c hc) a h.2⟩

theorem allWV_traverse_vanilla {σ α : Type} [DecidableEq α] (g : Game σ α)
    (bot_identity : ℕ) :
    ∀ (t : MCTSNode α) (s : σ) (path : List α), allWV t = true →
      allWV (Vanilla.traverse_nodes g bot_identity t s path).2.1 = true := by
  intro t s path
  induction t, s, path using Vanilla.traverse_nodes.induct g bot_identity with
  | case1 t s path hc hs =>
      intro h
      rw [traverse_vanilla_stop g bot_identity t s path hc hs]
      exact h
  | case2 t s path hc hs hsel =>
      intro h
      exfalso
      cases hcs : t.child_nodes with
      | nil => exact hs (Or.inl (by rw [hcs]; rfl))
      | cons e rest =>
          rw [hcs] at hsel
          simp [Vanilla.selectChild] at hsel
  | case3 t s path hc hs a c hsel ih =>
      intro h
      rw [traverse_vanilla_step g bot_identity t s path hc hs hsel]
      exact ih (allWV_child h (Vanilla.selectChild_mem hsel))
  | case4 t s path hcond =>
      intro h
      rw [traverse_vanilla_exit g bot_identity t s path hcond]
      exact h

theorem allWV_traverse_modified {σ α : Type} [DecidableEq α] (g : Game σ α)
    (ths : ℕ → ℚ) :
    ∀ (t : MCTSNode α) (s : σ) (path : List α) (depth : ℕ), allWV t = true →
      ∀ r, Modified.traverse_nodes g ths t s path depth = some r →
        allWV r.2.1 = true := by
  intro t s path depth
  induction t, s, path, depth using Modified.traverse_nodes.induct g ths with
  | case1 t s path depth hc hs =>
      intro h r hr
      rw [traverse_modified_stop g ths t s path depth hc hs] at hr
      cases hr
      exact h
  | case2 t s path depth hc hs prob hroul =>
      intro h r hr
      rw [traverse_modified_none_roulette g ths t s path depth hc hs hroul] at hr
      cases hr
  | case3 t s path depth hc hs prob a hroul hget =>
      intro h r hr
      rw [traverse_modified_none_key g ths t s path depth hc hs hroul hget] at hr
      cases hr
  | case4 t s path depth hc hs prob a hroul c hget ih =>
      intro h r hr
      rw [traverse_modified_step g ths t s path depth hc hs hroul hget] at hr
      exact ih (allWV_child h (dictGet_mem hget)) r hr
  | case5 t s path depth hcond =>
      intro h r hr
      rw [traverse_modified_exit g ths t s path depth hcond] at hr
      cases hr
      exact h

theorem allWV_thinkStep_vanilla {σ α : Type} [DecidableEq α] (g : Game σ α)
    (fuel : ℕ) (picks : ℕ → ℕ) (rolls : ℕ → ℕ → ℕ) (s0 : σ)
    (bot_identity : ℕ) (i : ℕ) (st : MCTSNode α × ℕ)
    (h : allWV st.1 = true) :
    allWV (Vanilla.thinkStep g fuel picks rolls s0 bot_identity i st).1 = true := by
  have hnode := allWV_traverse_vanilla g bot_identity st.1 s0 [] h
  exact allWV_backpropagate _ _ _
    (allWV_updateAt (fun c _ => allWV_expand_leaf g _ _ _ hnode) _ _ h)

theorem allWV_thinkIterate_vanilla {σ α : Type} [DecidableEq α] (g : Game σ α)
    (fuel : ℕ) (picks : ℕ → ℕ) (rolls : ℕ → ℕ → ℕ) (s0 : σ)
    (bot_identity : ℕ) :
    ∀ k, allWV (Vanilla.thinkIterate g fuel picks rolls s0 bot_identity k).1
      = true := by
  intro k
  induction k with
  | zero => exact allWV_new _
  | succ k ih => exact allWV_thinkStep_vanilla g fuel picks rolls s0 bot_identity k _ ih

theorem allWV_thinkStep_modified {σ α : Type} [DecidableEq α] (g : Game σ α)
    (fuel : ℕ) (picks : ℕ → ℕ) (rolls : ℕ → ℕ → ℕ) (ths : ℕ → ℕ → ℚ)
    (s0 : σ) (i : ℕ) (st : MCTSNode α × ℕ) (h : allWV st.1 = true) :
    ∀ st', Modified.thinkStep g fuel picks rolls ths s0 i st = some st' →
      allWV st'.1 = true := by
  intro st' hst
  rw [Modified.thinkStep] at hst
  split at hst
  · cases hst
  · next tr htr =>
      cases hst
      have hnode := allWV_traverse_modified g (ths i) st.1 s0 [] 0 h tr htr
      exact allWV_backpropagate _ _ _
        (allWV_updateAt (fun c _ => allWV_expand_leaf g _ _ _ hnode) _ _ h)

theorem allWV_thinkIterate_modified {σ α : Type} [DecidableEq α] (g : Game σ α)
    (fuel : ℕ) (picks : ℕ → ℕ) (rolls : ℕ → ℕ → ℕ) (ths : ℕ → ℕ → ℚ)
    (s0 : σ) :
    ∀ k st, Modified.thinkIterate g fuel picks rolls ths s0 k = some st →
      allWV st.1 = true := by
  intro k
  induction k with
  | zero =>
      intro st hst
      cases hst
      exact allWV_new _
  | succ k ih =>
      intro st hst
      rw [Modified.thinkIterate] at hst
      rcases Option.bind_eq_some.mp hst with ⟨mid, hmid, hstep⟩
      exact allWV_thinkStep_modified g fuel picks rolls ths s0 k mid
        (ih mid hmid) st hstep

/-- C2: `wins ≤ visits` holds at every node of the search tree after
every completed iteration (hence after every completed backpropagation —
within an iteration the tree is only changed by expansion, which adds a
zero/zero child, and by the final backpropagation), in both drivers; both
counters start at 0 in a fresh node; and backpropagation increments
`wins` (by 1, exactly when the outcome is a win) only at nodes where it
also increments `visits` (by exactly 1). -/
theorem wins_le_visits_invariant {σ α : Type} [DecidableEq α] (g : Game σ α)
    (fuel : ℕ) (picks : ℕ → ℕ) (rolls : ℕ → ℕ → ℕ) (ths : ℕ → ℕ → ℚ)
    (s0 : σ) (bot_identity : ℕ) (acts : List α) (won : Bool)
    (t : MCTSNode α) (r : List α) :
    (MCTSNode.new acts).visits = 0
    ∧ (MCTSNode.new acts).wins = 0
    ∧ (backpropagate won t r).visits = t.visits + 1
    ∧ (backpropagate won t r).wins = t.wins + (if won then 1 else 0)
    ∧ (∀ k,
        allWV (Vanilla.thinkIterate g fuel picks rolls s0 bot_identity k).1
          = true)
    ∧ (∀ k st, Modified.thinkIterate g fuel picks rolls ths s0 k = some st →
        allWV st.1 = true) :=
  ⟨rfl, rfl, backpropagate_visits won t r, backpropagate_wins won t r,
   allWV_thinkIterate_vanilla g fuel picks rolls s0 bot_identity,
   allWV_thinkIterate_modified g fuel picks rolls ths s0⟩

/-- Witness for C2 at concrete inputs: the modified loop state after 0
iterations over a trivial one-state game satisfies the invariant. -/
theorem wins_le_visits_invariant_witness :
    allWV (MCTSNode.new ([] : List ℕ), 0).1 = true :=
  (wins_le_visits_invariant
      { is_ended := fun _ => true, legal_actions := fun _ => [],
        next_state := fun s _ => s, current_player := fun _ => 1,
        points_values := fun _ => some fun _ => 1 }
      0 (fun _ => 0) (fun _ _ => 0) (fun _ _ => 0) () 1 [] true
      (MCTSNode.new []) []).2.2.2.2.2 0 (MCTSNode.new [], 0) rfl

theorem rollout_terminal {σ α : Type} (g : Game σ α) (pick : ℕ → ℕ) :
    ∀ (fuel : ℕ) (s : σ), g.is_ended s = true → rollout g pick fuel s = s := by
  intro fuel s h
  cases fuel with
  | zero => rfl
  | succ n =>
      show (if g.is_ended s = true then s else _) = s
      rw [if_pos h]

theorem thinkIterate_terminal_vanilla {σ α : Type} [DecidableEq α]
    (g : Game σ α) (fuel : ℕ) (picks : ℕ → ℕ) (rolls : ℕ → ℕ → ℕ) (s0 : σ)
    (bot_identity : ℕ)
    (hend : g.is_ended s0 = true) (hleg : g.legal_actions s0 = []) :
    ∀ k, Vanilla.thinkIterate g fuel picks rolls s0 bot_identity k
      = (MCTSNode.mk k (k * if is_win g s0 bot_identity then 1 else 0) [] [],
         k) := by
  intro k
  induction k with
  | zero =>
      show (MCTSNode.new (g.legal_actions s0), 0) = _
      rw [hleg]
      simp [MCTSNode.new]
  | succ k ih =>
      show Vanilla.thinkStep g fuel picks rolls s0 bot_identity k
        (Vanilla.thinkIterate g fuel picks rolls s0 bot_identity k) = _
      rw [ih]
      simp only [Vanilla.thinkStep]
      rw [traverse_vanilla_exit g bot_identity _ s0 []
        (by rw [hend]; rintro ⟨h1, _⟩; cases h1)]
      simp only [expand_leaf]
      rw [rollout_terminal g (rolls k) fuel s0 hend]
      cases hw : is_win g s0 bot_identity <;>
        simp [backpropagate, updateAt, hw, Nat.mul_succ]

theorem thinkIterate_terminal_modified {σ α : Type} [DecidableEq α]
    (g : Game σ α) (fuel : ℕ) (picks : ℕ → ℕ) (rolls : ℕ → ℕ → ℕ)
    (ths : ℕ → ℕ → ℚ) (s0 : σ)
    (hend : g.is_ended s0 = true) (hleg : g.legal_actions s0 = []) :
    ∀ k, Modified.thinkIterate g fuel picks rolls ths s0 k
      = some (MCTSNode.mk k
          (k * if is_win g s0 (g.current_player s0) then 1 else 0) [] [], k) := by
  intro k
  induction k with
  | zero =>
      show some (MCTSNode.new (g.legal_actions s0), 0) = _
      rw [hleg]
      simp [MCTSNode.new]
  | succ k ih =>
      show (Modified.thinkIterate g fuel picks rolls ths s0 k).bind
        (Modified.thinkStep g fuel picks rolls ths s0 k) = _
      rw [ih]
      simp only [Option.some_bind]
      rw [Modified.thinkStep]
      rw [traverse_modified_exit g (ths k) _ s0 [] 0
        (by rw [hend]; rintro ⟨h1, _⟩; cases h1)]
      simp only [expand_leaf]
      rw [rollout_terminal g (rolls k) fuel s0 hend]
      cases hw : is_win g s0 (g.current_player s0) <;>
        simp [backpropagate, updateAt, hw, Nat.mul_succ]

set_option maxRecDepth 8000 in
/-- C9 (amended): on a terminal root state (which has no legal actions),
both drivers return "no action" as a defined outcome; however, `rollout`
IS invoked — once per iteration, so the ghost invocation counter ends at
`num_nodes` rather than 0 — and every such invocation receives the
terminal state and returns it unchanged without performing a single
playout step. -/
theorem think_terminal_root {σ α : Type} [DecidableEq α] (g : Game σ α)
    (fuel : ℕ) (picks : ℕ → ℕ) (rolls : ℕ → ℕ → ℕ) (ths : ℕ → ℕ → ℚ)
    (s0 : σ)
    (hend : g.is_ended s0 = true) (hleg : g.legal_actions s0 = []) :
    (Vanilla.think g fuel picks rolls s0).1 = none
    ∧ (Vanilla.think g fuel picks rolls s0).2 = Vanilla.num_nodes
    ∧ Modified.think g fuel picks rolls ths s0
        = some (none, Modified.num_nodes)
    ∧ (∀ (pick : ℕ → ℕ) (n : ℕ) (s : σ), g.is_ended s = true →
        rollout g pick n s = s) := by
  have hv := thinkIterate_terminal_vanilla g fuel picks rolls s0
    (g.current_player s0) hend hleg Vanilla.num_nodes
  have hm := thinkIterate_terminal_modified g fuel picks rolls ths s0
    hend hleg Modified.num_nodes
  refine ⟨?_, ?_, ?_, fun pick n s h => rollout_terminal g pick n s h⟩
  · simp only [Vanilla.think]
    rw [hv]
    rfl
  · simp only [Vanilla.think]
    rw [hv]
  · simp only [Modified.think]
    rw [hm]
    rfl

set_option maxRecDepth 8000 in
/-- Witness for C9's amended statement at the concrete terminal game. -/
theorem think_terminal_root_witness :
    (Vanilla.think terminalGame 0 (fun _ => 0) (fun _ _ => 0) ()).1 = none
    ∧ (Vanilla.think terminalGame 0 (fun _ => 0) (fun _ _ => 0) ()).2
        = Vanilla.num_nodes
    ∧ Modified.think terminalGame 0 (fun _ => 0) (fun _ _ => 0) (fun _ _ => 0) ()
        = some (none, Modified.num_nodes)
    ∧ (∀ (pick : ℕ → ℕ) (n : ℕ) (s : Unit), terminalGame.is_ended s = true →
        rollout terminalGame pick n s = s) :=
  think_terminal_root terminalGame 0 (fun _ => 0) (fun _ _ => 0) (fun _ _ => 0)
    () rfl rfl

set_option maxRecDepth 8000 in
/-- Counterexample for C9 as stated: on the terminal one-state game the
vanilla driver does return no action, but its ghost rollout-invocation
counter ends at 100 (= `num_nodes`) and the modified driver's at 1000 —
`rollout` is invoked every iteration, not "not invoked": each call just
returns the terminal state immediately. -/
theorem think_terminal_root_counterexample :
    Vanilla.think terminalGame 0 (fun _ => 0) (fun _ _ => 0) () = (none, 100)
    ∧ Modified.think terminalGame 0 (fun _ => 0) (fun _ _ => 0) (fun _ _ => 0) ()
        = some (none, 1000)
    ∧ (100 : ℕ) ≠ 0 := by
  have hv := thinkIterate_terminal_vanilla terminalGame 0 (fun _ => 0)
    (fun _ _ => 0) () (terminalGame.current_player ()) rfl rfl
    Vanilla.num_nodes
  have hm := thinkIterate_terminal_modified terminalGame 0 (fun _ => 0)
    (fun _ _ => 0) (fun _ _ => 0) () rfl rfl Modified.num_nodes
  refine ⟨?_, ?_, by omega⟩
  · simp only [Vanilla.think]
    rw [hv]
    rfl
  · simp only [Modified.think]
    rw [hm]
    rfl

/-- Witness for C5 at concrete inputs: on the one-state terminal game,
both traversal variants return the starting node unchanged. -/
theorem traverse_nodes_stopping_witness :
    Vanilla.traverse_nodes terminalGame 1 (MCTSNode.mk 0 0 ([] : List ℕ) []) ()
        [] = ([], MCTSNode.mk 0 0 [] [], ())
    ∧ Modified.traverse_nodes terminalGame (fun _ => 0)
        (MCTSNode.mk 0 0 ([] : List ℕ) []) () [] 0
        = some ([], MCTSNode.mk 0 0 [] [], ()) :=
  ⟨((traverse_nodes_stopping terminalGame 1 (fun _ => 0)).1
      (MCTSNode.mk 0 0 [] []) () []).1 (Or.inl rfl),
   ((traverse_nodes_stopping terminalGame 1 (fun _ => 0)).2
      (MCTSNode.mk 0 0 [] []) () [] 0).1 (Or.inl rfl)⟩

/-- C1 (amended): for a child with nonzero visits the confidence-bound
score is `sign * wins/visits + C * sqrt(ln(parent.visits)/visits)` with
`C = explore_faction = 2.0`, where the exploitation sign is determined
GLOBALLY by the bot identity passed to the search — `+1` iff
`bot_identity == 1`, the same for every node of the tree regardless of
which player's turn that node's state represents — and the child with
the maximum score is selected (Python `max`: first maximum in iteration
order). -/
theorem ucb_global_sign {α : Type} :
    (∀ (parent_visits : ℕ) (node : MCTSNode α) (bot_identity : ℕ),
        node.visits ≠ 0 →
        Vanilla.ucb parent_visits node bot_identity
          = (((if bot_identity = 1 then (1 : ℝ) else -1)
                * ((node.wins : ℝ) / (node.visits : ℝ))
              + Vanilla.explore_faction
                * Real.sqrt (Real.log (parent_visits : ℝ) / (node.visits : ℝ))
              : ℝ) : WithTop ℝ))
    ∧ Vanilla.explore_faction = 2
    ∧ (∀ (parent_visits bot_identity : ℕ) (cs : List (α × MCTSNode α))
        (a : α) (c : MCTSNode α),
        Vanilla.selectChild parent_visits bot_identity cs = some (a, c) →
        (a, c) ∈ cs
        ∧ ∀ (b : α) (d : MCTSNode α), (b, d) ∈ cs →
            Vanilla.ucb parent_visits d bot_identity
              ≤ Vanilla.ucb parent_visits c bot_identity) := by
  refine ⟨?_, rfl, ?_⟩
  · intro pv node bot h
    simp only [Vanilla.ucb]
    rw [if_neg h]
    by_cases hb : bot = 1
    · rw [if_pos hb, if_pos hb, one_mul]
    · rw [if_neg hb, if_neg hb, neg_one_mul]
  · intro pv bot cs a c hsel
    cases cs with
    | nil => simp [Vanilla.selectChild] at hsel
    | cons e rest =>
        simp only [Vanilla.selectChild, Option.some.injEq] at hsel
        constructor
        · rw [← hsel]
          exact pyMax_mem _ rest e
        · intro b d hbd
          have hle := pyMax_le (fun p : α × MCTSNode α =>
            Vanilla.ucb pv p.2 bot) rest e (b, d) hbd
          rw [hsel] at hle
          exact hle

/-- Witness for C1's amended statement at a concrete node with one visit
and one win under a once-visited parent, evaluated for bot identity 2. -/
theorem ucb_global_sign_witness :
    (MCTSNode.mk 1 1 ([] : List ℕ) []).visits ≠ 0
    ∧ Vanilla.ucb 1 (MCTSNode.mk 1 1 ([] : List ℕ) []) 2
      = (((if (2 : ℕ) = 1 then (1 : ℝ) else -1)
            * (((MCTSNode.mk 1 1 ([] : List ℕ) []).wins : ℝ)
              / ((MCTSNode.mk 1 1 ([] : List ℕ) []).visits : ℝ))
          + Vanilla.explore_faction
            * Real.sqrt (Real.log ((1 : ℕ) : ℝ)
              / ((MCTSNode.mk 1 1 ([] : List ℕ) []).visits : ℝ)) : ℝ)
        : WithTop ℝ) :=
  ⟨by decide, (ucb_global_sign (α := ℕ)).1 1 (MCTSNode.mk 1 1 [] []) 2
    (by decide)⟩

/-- Counterexample for C1 as stated: the claim demands that the
exploitation sign flip per node according to which player's turn the
node's state represents — in particular a node and its own child (whose
states necessarily represent different players' turns) must receive
opposite signs.  Here a parent with `visits = wins = 1` and its child
with `visits = wins = 1` (parent visit counts 1, so the exploration term
is `2⋅√(ln 1) = 0` and the score is exactly the signed exploitation 1)
both score `-1` for bot identity 2 and both score `+1` for bot identity
1: the sign in `ucb` depends only on `bot_identity`, never on the node. -/
theorem ucb_sign_not_per_node :
    ((0 : ℕ), MCTSNode.mk 1 1 ([] : List ℕ) [])
        ∈ (MCTSNode.mk 1 1 ([] : List ℕ)
            [(0, MCTSNode.mk 1 1 [] [])]).child_nodes
    ∧ Vanilla.ucb 1
        (MCTSNode.mk 1 1 ([] : List ℕ) [(0, MCTSNode.mk 1 1 [] [])]) 2
        = ((-1 : ℝ) : WithTop ℝ)
    ∧ Vanilla.ucb 1 (MCTSNode.mk 1 1 ([] : List ℕ) []) 2
        = ((-1 : ℝ) : WithTop ℝ)
    ∧ Vanilla.ucb 1
        (MCTSNode.mk 1 1 ([] : List ℕ) [(0, MCTSNode.mk 1 1 [] [])]) 1
        = ((1 : ℝ) : WithTop ℝ)
    ∧ Vanilla.ucb 1 (MCTSNode.mk 1 1 ([] : List ℕ) []) 1
        = ((1 : ℝ) : WithTop ℝ) := by
  refine ⟨List.mem_cons_self _ _, ?_, ?_, ?_, ?_⟩ <;>
  · simp only [Vanilla.ucb, MCTSNode.visits, MCTSNode.wins,
      Vanilla.explore_faction]
    norm_num [Real.log_one, Real.sqrt_zero]

end MCTS
